import Mathlib

/-!
Verification of the semantic-retrieval and dispatch core of the
`agent-tars` knowledge assistant (`src/agents/claude_agent.py`).

Text is modelled as a list of Unicode code points (`List Nat`), so that
Python string operations (`.strip()`, `.upper()`, `.lower()`, `in`,
`.split()`, `" ".join`, slicing) become executable list functions.
Relevance scores are modelled as exact rationals (`ℚ`); the embedding
model and the faiss vector index are external libraries, so the index
search is modelled from the spec (§4.2) as inner products of
L2-normalized vectors sorted by score (descending) with ties broken by
build order.
-/

namespace AgentTars

/-- Python whitespace characters (`str.strip`, `str.split`, `\s`):
space, tab, newline, carriage return, vertical tab, form feed
(ASCII model of the Python semantics). -/
def wsB (c : Nat) : Bool :=
  decide (c = 32 ∨ c = 9 ∨ c = 10 ∨ c = 13 ∨ c = 11 ∨ c = 12)

/-- Python `str.upper` on a single code point (ASCII model). -/
def upperC (c : Nat) : Nat := if 97 ≤ c ∧ c ≤ 122 then c - 32 else c

/-- Python `str.lower` on a single code point (ASCII model). -/
def lowerC (c : Nat) : Nat := if 65 ≤ c ∧ c ≤ 90 then c + 32 else c

/-- Python `str.upper`. -/
def upperL (l : List Nat) : List Nat := l.map upperC

/-- Python `str.lower`. -/
def lowerL (l : List Nat) : List Nat := l.map lowerC

/-- Python `str.strip()`: drop whitespace from both ends. -/
def pyStrip (l : List Nat) : List Nat :=
  ((l.dropWhile wsB).reverse.dropWhile wsB).reverse

/-- Code points of a Lean string literal, for writing concrete inputs. -/
def strCodes (s : String) : List Nat := s.data.map Char.toNat

/-- `startsWithL p l` holds when `p` is a leading segment of `l`. -/
def startsWithL : List Nat → List Nat → Bool
  | [], _ => true
  | _ :: _, [] => false
  | p :: ps, c :: cs => p == c && startsWithL ps cs

/-- Python substring containment `p in l`. -/
def containsSub (p : List Nat) : List Nat → Bool
  | [] => startsWithL p []
  | c :: cs => startsWithL p (c :: cs) || containsSub p cs

/-- The closed intent set of the dispatcher. -/
inductive Intent
  | CALENDAR
  | EMAIL
  | KNOWLEDGE
  | ANALYSIS
deriving DecidableEq

/-- Keyword scanned first by the intent parser. -/
def kwCALENDAR : List Nat := strCodes "CALENDAR"

/-- Keyword scanned second by the intent parser. -/
def kwEMAIL : List Nat := strCodes "EMAIL"

/-- Keyword scanned third by the intent parser. -/
def kwANALYSIS : List Nat := strCodes "ANALYSIS"

/-- `detect_user_intent` (claude_agent.py:303-334), parsing stage: the
completion response is stripped and upper-cased, then scanned for the
intent keywords in priority order CALENDAR, EMAIL, ANALYSIS, with
KNOWLEDGE as the default.  The completion call itself is the external
completion port; this function takes its response text. -/
def detect_user_intent (response : List Nat) : Intent :=
  let r := upperL (pyStrip response)
  if containsSub kwCALENDAR r then .CALENDAR
  else if containsSub kwEMAIL r then .EMAIL
  else if containsSub kwANALYSIS r then .ANALYSIS
  else .KNOWLEDGE

/-- `extract_time_context` (claude_agent.py:571-586): scan the
lower-cased message for keyword sets in priority order and return a
day window; default 7. -/
def extract_time_context (message : List Nat) : Nat :=
  let m := lowerL message
  if containsSub (strCodes "today") m || containsSub (strCodes "this morning") m ||
      containsSub (strCodes "this afternoon") m then 1
  else if containsSub (strCodes "tomorrow") m || containsSub (strCodes "next day") m then 2
  else if containsSub (strCodes "this week") m || containsSub (strCodes "week") m then 7
  else if containsSub (strCodes "next week") m then 14
  else if containsSub (strCodes "month") m || containsSub (strCodes "this month") m then 30
  else 7

/-- Sentence-terminal punctuation `.`, `!`, `?`. -/
def sentEndB (c : Nat) : Bool := decide (c = 46 ∨ c = 33 ∨ c = 63)

/-- Whether a list starts with a whitespace code point. -/
def headWs : List Nat → Bool
  | [] => false
  | c :: _ => wsB c

/-- Single pass of `re.split(r'(?<=[.!?])\s+', text)`: `skipping` is true
while consuming the whitespace run that follows a split point, `cur`
holds the current piece in reverse. -/
def splitSentGo (skipping : Bool) (cur : List Nat) : List Nat → List (List Nat)
  | [] => [cur.reverse]
  | c :: rest =>
    if skipping && wsB c then splitSentGo true cur rest
    else if sentEndB c && headWs rest then
      (cur.reverse ++ [c]) :: splitSentGo true [] rest
    else splitSentGo false (c :: cur) rest

/-- `re.split(r'(?<=[.!?])\s+', text)` (claude_agent.py:107): split at
whitespace runs that directly follow sentence-terminal punctuation. -/
def splitSentences (text : List Nat) : List (List Nat) := splitSentGo false [] text

/-- Single pass of Python `str.split()` (no separator): `cur` holds the
current word in reverse; whitespace runs separate words, empty words
are not produced. -/
def pySplitGo (cur : List Nat) : List Nat → List (List Nat)
  | [] => if cur = [] then [] else [cur.reverse]
  | c :: rest =>
    if wsB c then
      if cur = [] then pySplitGo [] rest else cur.reverse :: pySplitGo [] rest
    else pySplitGo (c :: cur) rest

/-- Python `str.split()`. -/
def pySplitWords (l : List Nat) : List (List Nat) := pySplitGo [] l

/-- Python `" ".join(words)`. -/
def joinSpace : List (List Nat) → List Nat
  | [] => []
  | [w] => w
  | w :: ws => w ++ 32 :: joinSpace ws

/-- Python slice `l[s:]` for an arbitrary integer start: a non-negative
start drops that many leading elements (the empty list beyond the end);
a negative start counts from the end of the list, clamped at its
head. -/
def pySliceFrom {α : Type} (l : List α) (s : Int) : List α :=
  if 0 ≤ s then l.drop s.toNat
  else l.drop (l.length - (-s).toNat)

/-- Loop body of `chunk_text` (claude_agent.py:111-120).  State is
`(chunks so far, current buffer)`.  If appending `sentence` would make
the buffer pass `chunk_size` (by the code's test, which ignores the
joining space) and the buffer is non-empty, the buffer is closed
(stripped and emitted) and a new buffer is seeded from the slice
`words[-overlap//5:]` of its words; otherwise the sentence is appended
with a single joining space.  Python parses `-overlap//5` as
`(-overlap)//5` (unary minus binds tighter than `//`) and `//` floors,
so the slice start is `-⌈overlap/5⌉` for positive `overlap` and `0`
for `overlap = 0` — while the guard compares against the un-negated
`overlap//5 = ⌊overlap/5⌋`. -/
def chunkStep (chunk_size overlap : Nat) (acc : List (List Nat) × List Nat)
    (sentence : List Nat) : List (List Nat) × List Nat :=
  let chunks := acc.1
  let current := acc.2
  if chunk_size < current.length + sentence.length ∧ current ≠ [] then
    let words := pySplitWords current
    let overlap_words := if overlap / 5 < words.length
      then pySliceFrom words (Int.fdiv (-(overlap : Int)) 5)
      else words
    (chunks ++ [pyStrip current], joinSpace overlap_words ++ 32 :: sentence)
  else
    (chunks, if current = [] then sentence else current ++ 32 :: sentence)

/-- `chunk_text` (claude_agent.py:104-126): split into sentences, fold
the chunking step over them, and flush the final buffer when its
stripped form is non-empty. -/
def chunk_text (text : List Nat) (chunk_size overlap : Nat) : List (List Nat) :=
  let sentences := splitSentences text
  let st := sentences.foldl (chunkStep chunk_size overlap) ([], [])
  if pyStrip st.2 ≠ [] then st.1 ++ [pyStrip st.2] else st.1

/-- The overlap-seeded buffer exactly as claim C5 words it: the last
`overlap/5` (integer division, i.e. FLOOR) words of the just-closed
buffer — or all of its words if it has fewer — joined with single
spaces and prepended to the next sentence.  Stated from the claim's
words, for comparison with `chunkStep` (which follows the code and
rounds the word count UP for positive `overlap`). -/
def claimSeed (overlap : Nat) (current sentence : List Nat) : List Nat :=
  let words := pySplitWords current
  let tail := if words.length ≤ overlap / 5 then words
    else words.drop (words.length - overlap / 5)
  joinSpace tail ++ 32 :: sentence

/-- One row of the SQLite `documents` table (claude_agent.py:65-76).
`chunk_id` is the sequence position of the chunk inside its document;
`metadata` is the JSON blob as stored.  Timestamps are wall-clock
columns with no algorithmic role and are omitted. -/
structure DocRow where
  id : Nat
  title : List Nat
  content : List Nat
  source : List Nat
  chunk_id : Nat
  metadata : List Nat
deriving DecidableEq

/-- One entry of the `results` list built by `search_knowledge_base`
(claude_agent.py:183-189). -/
structure SearchResult where
  content : List Nat
  title : List Nat
  source : List Nat
  metadata : List Nat
  relevance_score : ℚ
deriving DecidableEq

/-- One entry of the `recent_knowledge_searches` log
(claude_agent.py:193-197).  The wall-clock `timestamp` field is
omitted. -/
structure SearchInfo where
  query : List Nat
  results : List SearchResult
deriving DecidableEq

/-- The agent state touched by the retrieval engine: the persisted
`documents` table, the optional vector index (the list of indexed
embedding vectors, in build order), the retained `(doc_id, content)`
chunk list, and the bounded recent-searches log. -/
structure AgentState where
  documents : List DocRow
  vector_index : Option (List (List ℚ))
  document_chunks : List (Nat × List Nat)
  recent_knowledge_searches : List SearchInfo
deriving DecidableEq

/-- Inner product of two embedding vectors (componentwise over the
common length). -/
def innerProd (u v : List ℚ) : ℚ := (List.zipWith (· * ·) u v).sum

/-- Squared L2 norm of an embedding vector. -/
def sumSq (v : List ℚ) : ℚ := innerProd v v

/-- The order in which the index search ranks hits: higher score first,
ties broken by smaller (earlier-built) index position. -/
def hitOrder (a b : ℚ × Int) : Prop := b.1 < a.1 ∨ (a.1 = b.1 ∧ a.2 ≤ b.2)

/-- Strict version of `hitOrder`: strictly descending by score, ties
broken strictly by earlier build position. -/
def hitStrict (a b : ℚ × Int) : Prop := b.1 < a.1 ∨ (a.1 = b.1 ∧ a.2 < b.2)

instance : DecidableRel hitOrder := fun a b =>
  decidable_of_iff (b.1 < a.1 ∨ (a.1 = b.1 ∧ a.2 ≤ b.2)) Iff.rfl

instance : IsTotal (ℚ × Int) hitOrder :=
  ⟨fun a b => by
    unfold hitOrder
    rcases lt_trichotomy a.1 b.1 with h | h | h
    · exact Or.inr (Or.inl h)
    · rcases Int.le_total a.2 b.2 with h2 | h2
      · exact Or.inl (Or.inr ⟨h, h2⟩)
      · exact Or.inr (Or.inr ⟨h.symm, h2⟩)
    · exact Or.inl (Or.inl h)⟩

instance : IsTrans (ℚ × Int) hitOrder :=
  ⟨fun a b c hab hbc => by
    unfold hitOrder at *
    rcases hab with h1 | ⟨h1, h1'⟩ <;> rcases hbc with h2 | ⟨h2, h2'⟩
    · exact Or.inl (h2.trans h1)
    · exact Or.inl (h2 ▸ h1)
    · exact Or.inl (h1 ▸ h2)
    · exact Or.inr ⟨h1.trans h2, h1'.trans h2'⟩⟩

/-- Pair each score with its index position, starting at `i`. -/
def withIdx : List ℚ → Int → List (ℚ × Int)
  | [], _ => []
  | s :: ss, i => (s, i) :: withIdx ss (i + 1)

/-- Modelled from the spec: the faiss `IndexFlatIP.search` call
(claude_agent.py:168) is an external library routine absent from the
source; spec §4.2 specifies it as "return the k highest-scoring
entries, ties broken by index-build order (earlier-built wins)" where
the score of position `i` is the inner product of the query vector
with the `i`-th indexed vector.  `scores` is that score list in build
order; the result is the stably sorted hit list truncated to `k`. -/
def vectorIndexSearch (scores : List ℚ) (k : Nat) : List (ℚ × Int) :=
  (List.insertionSort hitOrder (withIdx scores 0)).take k

/-- Python list indexing `l[i]`: non-negative indices from the front,
negative indices from the back, `none` when out of bounds on either
side (an `IndexError`). -/
def pyIndex (l : List α) (i : Int) : Option α :=
  if 0 ≤ i then l.get? i.toNat
  else if 0 ≤ i + l.length then l.get? (i + l.length).toNat
  else none

/-- `SELECT title, source, metadata FROM documents WHERE id = ?` with
`fetchone` (claude_agent.py:177-178): the first matching row. -/
def getMetadata (table : List DocRow) (did : Nat) : Option (List Nat × List Nat × List Nat) :=
  match table.find? (fun r => r.id == did) with
  | some r => some (r.title, r.source, r.metadata)
  | none => none

/-- The result-collection loop of `search_knowledge_base`
(claude_agent.py:170-189) over the `(score, idx)` hits: a hit survives
when `idx < len(document_chunks)` and `score > min_score`; the chunk is
fetched by Python indexing (an out-of-bounds access is an `IndexError`,
modelled as `.error`), its metadata row is looked up, and hits whose
metadata row is missing are dropped. -/
def collectResults (chunks : List (Nat × List Nat)) (table : List DocRow) (min_score : ℚ) :
    List (ℚ × Int) → Except Unit (List SearchResult)
  | [] => .ok []
  | (score, idx) :: rest =>
    if idx < (chunks.length : Int) ∧ min_score < score then
      match pyIndex chunks idx with
      | none => .error ()
      | some (did, content) =>
        match getMetadata table did with
        | some (t, s, m) =>
          (collectResults chunks table min_score rest).map
            (fun rs => ⟨content, t, s, m, score⟩ :: rs)
        | none => collectResults chunks table min_score rest
    else collectResults chunks table min_score rest

instance {ε α : Type} [DecidableEq ε] [DecidableEq α] : DecidableEq (Except ε α) := fun x y =>
  match x, y with
  | .ok a, .ok b => decidable_of_iff (a = b) (by simp)
  | .error a, .error b => decidable_of_iff (a = b) (by simp)
  | .ok _, .error _ => isFalse (by simp)
  | .error _, .ok _ => isFalse (by simp)

/-- The string returned when the index is absent or the chunk list is
empty (claude_agent.py:163). -/
def emptyKBMessage : List Nat :=
  strCodes "Knowledge base is empty. Please add some documents first."

/-- The string returned when no hit survives the threshold
(claude_agent.py:209). -/
def noRelevantMessage : List Nat :=
  strCodes "No relevant information found in the knowledge base."

/-- The observable outcome of `search_knowledge_base`: the empty-index
message, the zero-matches message, the formatted non-empty result list,
or an uncaught `IndexError` escaping the loop (`raised`; unreachable
for hits produced by `vectorIndexSearch`, whose positions are
non-negative). -/
inductive SearchReply
  | emptyKB
  | noRelevant
  | found (results : List SearchResult)
  | raised
deriving DecidableEq

/-- Python `l[-n:]` on the recent-searches log: the last `n` entries
(all of them when there are fewer). -/
def lastN (n : Nat) (l : List α) : List α := l.drop (l.length - n)

/-- Append one entry to the recent-searches log and keep the last 10
(claude_agent.py:198-199). -/
def pushLog (st : AgentState) (query : List Nat) (rs : List SearchResult) : AgentState :=
  let log := lastN 10 (st.recent_knowledge_searches ++ [⟨query, rs⟩])
  { st with recent_knowledge_searches := log }

/-- `search_knowledge_base` (claude_agent.py:160-209).  `embed` is the
external embedding port composed with L2 normalization
(claude_agent.py:165-166); the query string is embedded, scored against
every indexed vector, the top `top_k` hits are collected through the
guard loop, and on a non-empty result list the query is appended to the
bounded recent-searches log.  Returns the updated state and the
reply. -/
def search_knowledge_base (embed : List Nat → List ℚ) (st : AgentState)
    (query : List Nat) (top_k : Nat) (min_score : ℚ) : AgentState × SearchReply :=
  match st.vector_index with
  | none => (st, .emptyKB)
  | some index =>
    if st.document_chunks.length = 0 then (st, .emptyKB)
    else
      let scores := index.map (innerProd (embed query))
      let hits := vectorIndexSearch scores top_k
      match collectResults st.document_chunks st.documents min_score hits with
      | .error _ => (st, .raised)
      | .ok results =>
        if results = [] then (st, .noRelevant)
        else (pushLog st query results, .found results)

/-- The result list a query returns (empty for the message replies). -/
def searchResults (embed : List Nat → List ℚ) (st : AgentState)
    (query : List Nat) (top_k : Nat) (min_score : ℚ) : List SearchResult :=
  match (search_knowledge_base embed st query top_k min_score).2 with
  | .found rs => rs
  | _ => []

/-- `build_vector_index` (claude_agent.py:128-151): read all rows
`ORDER BY id`, retain the `(id, content)` list, embed every content
(the embedding port plus L2 normalization is the external `embed`),
and install the index only when at least one embedding exists — on an
empty table `vector_index` is left untouched (it stays `none` after
`__init__`). -/
def build_vector_index (embed : List Nat → List ℚ) (st : AgentState) : AgentState :=
  let rows := List.insertionSort (fun a b : DocRow => a.id ≤ b.id) st.documents
  let chunks := rows.map (fun r => (r.id, r.content))
  let embeddings := chunks.map (fun p => embed p.2)
  if embeddings.length = 0 then { st with document_chunks := chunks }
  else { st with document_chunks := chunks, vector_index := some embeddings }

/-- A possible overlap seed prepended to a buffer: empty (no chunk was
closed before this buffer began) or some word list joined with spaces
plus the joining space. -/
def IsSeed (pre : List Nat) : Prop :=
  pre = [] ∨ ∃ w, pre = joinSpace w ++ [32]

/-- Shape invariant of an emitted chunk (claim C6, amended): either the
whole chunk fits in `chunk_size + 1` characters, or the chunk is — up
to stripping — an overlap seed followed by one single sentence of the
input (emitted whole, untruncated). -/
def GoodChunk (chunk_size : Nat) (sents : List (List Nat)) (c : List Nat) : Prop :=
  c.length ≤ chunk_size + 1 ∨
    ∃ pre s, s ∈ sents ∧ IsSeed pre ∧ c = pyStrip (pre ++ s)

/-- Shape invariant of the running buffer: empty, within
`chunk_size + 1`, or an overlap seed followed by one single sentence. -/
def GoodBuf (chunk_size : Nat) (sents : List (List Nat)) (cur : List Nat) : Prop :=
  cur = [] ∨ cur.length ≤ chunk_size + 1 ∨
    ∃ pre s, s ∈ sents ∧ IsSeed pre ∧ cur = pre ++ s

/-- Concrete embedding port for witnesses: every text embeds to the
unit vector `(3/5, 4/5)`. -/
def wEmbed : List Nat → List ℚ := fun _ => [3/5, 4/5]

/-- Concrete documents table for witnesses. -/
def wTable : List DocRow :=
  [⟨1, strCodes "T", strCodes "alpha", strCodes "manual", 0, strCodes "\x7b\x7d"⟩,
   ⟨2, strCodes "T", strCodes "beta", strCodes "manual", 1, strCodes "\x7b\x7d"⟩]

/-- Concrete agent state for witnesses: two chunks, their table rows, a
two-vector unit index, an empty recent-searches log. -/
def wState : AgentState :=
  { documents := wTable
    vector_index := some [[3/5, 4/5], [1, 0]]
    document_chunks := [(1, strCodes "alpha"), (2, strCodes "beta")]
    recent_knowledge_searches := [] }

theorem startsWithL_iff (p : List Nat) : ∀ l, startsWithL p l = true ↔ ∃ t, l = p ++ t := by
  induction p with
  | nil => intro l; simp [startsWithL]
  | cons x xs ih =>
    intro l
    cases l with
    | nil => simp [startsWithL]
    | cons c cs =>
      simp only [startsWithL, Bool.and_eq_true, beq_iff_eq, ih, List.cons_append,
        List.cons.injEq]
      constructor
      · rintro ⟨rfl, t, rfl⟩; exact ⟨t, rfl, rfl⟩
      · rintro ⟨t, rfl, rfl⟩; exact ⟨rfl, t, rfl⟩

theorem containsSub_iff (p : List Nat) : ∀ l, containsSub p l = true ↔ ∃ a b, l = a ++ p ++ b := by
  intro l
  induction l with
  | nil =>
    simp only [containsSub, startsWithL_iff]
    constructor
    · rintro ⟨t, ht⟩; exact ⟨[], t, by simpa using ht⟩
    · rintro ⟨a, b, h⟩
      have h' : a = [] ∧ p = [] ∧ b = [] := by simpa using h.symm
      exact ⟨[], by simp [h'.2.1]⟩
  | cons c cs ih =>
    simp only [containsSub, Bool.or_eq_true, startsWithL_iff, ih]
    constructor
    · rintro (⟨t, ht⟩ | ⟨a, b, hab⟩)
      · exact ⟨[], t, by simpa using ht⟩
      · exact ⟨c :: a, b, by simp [hab]⟩
    · rintro ⟨a, b, h⟩
      cases a with
      | nil => exact Or.inl ⟨b, by simpa using h⟩
      | cons a0 as =>
        simp only [List.cons_append, List.cons.injEq] at h
        exact Or.inr ⟨as, b, h.2⟩

theorem containsSub_nil_pat : ∀ l, containsSub [] l = true := by
  intro l; cases l <;> simp [containsSub, startsWithL]

theorem containsSub_dropWhile (p : List Nat) (hws : ∀ c ∈ p, wsB c = false) :
    ∀ l, containsSub p (l.dropWhile wsB) = containsSub p l := by
  intro l
  induction l with
  | nil => rfl
  | cons c cs ih =>
    by_cases h : wsB c = true
    · rw [List.dropWhile_cons, if_pos h, ih]
      cases p with
      | nil => rw [containsSub_nil_pat, containsSub_nil_pat]
      | cons p0 ps =>
        have hp0 : wsB p0 = false := hws p0 (List.mem_cons_self _ _)
        have hne : (p0 == c) = false := by
          apply beq_eq_false_iff_ne.mpr
          intro he; rw [he, h] at hp0; cases hp0
        simp [containsSub, startsWithL, hne]
    · rw [List.dropWhile_cons, if_neg h]

theorem containsSub_reverse (p l : List Nat) :
    containsSub p.reverse l.reverse = containsSub p l := by
  have key : (∃ a b, l = a ++ p ++ b) ↔ ∃ a b, l.reverse = a ++ p.reverse ++ b := by
    constructor
    · rintro ⟨a, b, rfl⟩
      exact ⟨b.reverse, a.reverse, by simp⟩
    · rintro ⟨a, b, h⟩
      refine ⟨b.reverse, a.reverse, ?_⟩
      have h2 := congrArg List.reverse h
      simp only [List.reverse_reverse, List.reverse_append] at h2
      simpa [List.append_assoc] using h2
  have h3 := (containsSub_iff p.reverse l.reverse).trans
    (key.symm.trans (containsSub_iff p l).symm)
  cases hb : containsSub p l <;> cases hb2 : containsSub p.reverse l.reverse <;> simp_all

theorem containsSub_rev_arg (p X : List Nat) :
    containsSub p X.reverse = containsSub p.reverse X := by
  conv_lhs => rw [← List.reverse_reverse p]
  exact containsSub_reverse p.reverse X

theorem containsSub_pyStrip (p : List Nat) (hws : ∀ c ∈ p, wsB c = false) (l : List Nat) :
    containsSub p (pyStrip l) = containsSub p l := by
  have hwsr : ∀ c ∈ p.reverse, wsB c = false := fun c hc => hws c (List.mem_reverse.mp hc)
  unfold pyStrip
  rw [containsSub_rev_arg, containsSub_dropWhile _ hwsr, containsSub_reverse,
    containsSub_dropWhile _ hws]

theorem wsB_upperC (c : Nat) : wsB (upperC c) = wsB c := by
  unfold upperC
  split
  · next h => simp only [wsB, decide_eq_decide]; omega
  · rfl

theorem upperL_dropWhile (l : List Nat) :
    upperL (l.dropWhile wsB) = (upperL l).dropWhile wsB := by
  induction l with
  | nil => rfl
  | cons c cs ih =>
    show upperL ((c :: cs).dropWhile wsB) = (upperC c :: upperL cs).dropWhile wsB
    rw [List.dropWhile_cons, List.dropWhile_cons, wsB_upperC]
    by_cases h : wsB c = true
    · rw [if_pos h, if_pos h, ih]
    · rw [if_neg h, if_neg h]; rfl

theorem upperL_reverse (l : List Nat) : upperL l.reverse = (upperL l).reverse := by
  simp [upperL]

theorem upperL_pyStrip (l : List Nat) : upperL (pyStrip l) = pyStrip (upperL l) := by
  unfold pyStrip
  simp only [upperL_reverse, upperL_dropWhile]

theorem containsSub_strip_upper (p r : List Nat) (hws : ∀ c ∈ p, wsB c = false) :
    containsSub p (upperL (pyStrip r)) = containsSub p (upperL r) := by
  rw [upperL_pyStrip, containsSub_pyStrip p hws]

/-- C1: intent classification scans the upper-cased completion response
for "CALENDAR", then "EMAIL", then "ANALYSIS", in that priority order
(the leading/trailing-whitespace strip performed before upper-casing
cannot create or destroy an occurrence of the whitespace-free
keywords); a response containing both "EMAIL" and "CALENDAR" classifies
as CALENDAR, and one containing none of the three keywords defaults to
KNOWLEDGE. -/
theorem C1_intent_priority (response : List Nat) :
    (detect_user_intent response =
      if containsSub kwCALENDAR (upperL response) then .CALENDAR
      else if containsSub kwEMAIL (upperL response) then .EMAIL
      else if containsSub kwANALYSIS (upperL response) then .ANALYSIS
      else .KNOWLEDGE) ∧
    (containsSub kwEMAIL (upperL response) = true →
      containsSub kwCALENDAR (upperL response) = true →
      detect_user_intent response = .CALENDAR) ∧
    (containsSub kwCALENDAR (upperL response) = false →
      containsSub kwEMAIL (upperL response) = false →
      containsSub kwANALYSIS (upperL response) = false →
      detect_user_intent response = .KNOWLEDGE) := by
  have hc := containsSub_strip_upper kwCALENDAR response (by decide)
  have he := containsSub_strip_upper kwEMAIL response (by decide)
  have ha := containsSub_strip_upper kwANALYSIS response (by decide)
  have hmain : detect_user_intent response =
      if containsSub kwCALENDAR (upperL response) then .CALENDAR
      else if containsSub kwEMAIL (upperL response) then .EMAIL
      else if containsSub kwANALYSIS (upperL response) then .ANALYSIS
      else .KNOWLEDGE := by
    simp only [detect_user_intent]
    rw [hc, he, ha]
  refine ⟨hmain, ?_, ?_⟩
  · intro h1 h2; rw [hmain]; simp [h2]
  · intro h1 h2 h3; rw [hmain]; simp [h1, h2, h3]

/-- Witness for C1 at concrete responses: a response naming both EMAIL
and CALENDAR classifies as CALENDAR; a keyword-free response defaults
to KNOWLEDGE. -/
theorem C1_intent_priority_w :
    detect_user_intent (strCodes "  Primary intent: EMAIL or CALENDAR.") = .CALENDAR ∧
    detect_user_intent (strCodes "hello there") = .KNOWLEDGE :=
  ⟨(C1_intent_priority (strCodes "  Primary intent: EMAIL or CALENDAR.")).2.1
      (by decide) (by decide),
   (C1_intent_priority (strCodes "hello there")).2.2 (by decide) (by decide) (by decide)⟩

/-- C4, counterexample: the claim asserts the window for
"anything next week?" is 14 days, but the keyword set
\x7b"this week","week"\x7d is consulted BEFORE \x7b"next week"\x7d and
the substring "week" occurs inside "next week", so the code returns 7;
the 14-day branch is unreachable for any message.  (The lower-cased
message does contain "next week", yet the result is 7, not 14.) -/
theorem C4_time_window_cex :
    containsSub (strCodes "next week") (lowerL (strCodes "anything next week?")) = true ∧
    extract_time_context (strCodes "anything next week?") = 7 ∧
    (7 : Nat) ≠ 14 := by
  refine ⟨by decide, by decide, by decide⟩

/-- C4, amended: the calendar time-window inference returns 2 days for
"Can we meet tomorrow?", 7 days for "anything next week?" (the
\x7b"this week","week"\x7d set matches the substring "week" of
"next week" first, making the 14-day branch unreachable), and 7 days
(the default) for "hello", the window being computed by scanning the
lower-cased message for the keyword sets in the code's priority
order. -/
theorem C4_time_window :
    extract_time_context (strCodes "Can we meet tomorrow?") = 2 ∧
    extract_time_context (strCodes "anything next week?") = 7 ∧
    extract_time_context (strCodes "hello") = 7 := by
  refine ⟨by decide, by decide, by decide⟩

/-- C5, counterexample: two failures of the claim's "exactly the last
`overlap/5` (integer division) words".  (i) With `overlap = 0` the
slice is `words[-0:] = words[0:]`, the WHOLE word list, so closing the
one-word buffer "ab." on sentence "cd." seeds "ab. cd.", not the
claimed empty tail " cd.".  (ii) With `overlap = 7` we have
`overlap/5 = 1`, but Python parses `words[-overlap//5:]` as
`words[(-overlap)//5:]` and `(-7)//5 = -2` (floor division of a
negative rounds down), so closing the two-word buffer "aa bb." on
sentence "cc." seeds BOTH words ("aa bb. cc."), not the claimed one
("bb. cc.").  In both cases the close condition holds, so the claim
applies; the final conjunct checks the divergence end-to-end through
`chunk_text`. -/
theorem C5_overlap_seed_cex :
    ((3 < (strCodes "ab.").length + (strCodes "cd.").length ∧ strCodes "ab." ≠ []) ∧
     (chunkStep 3 0 ([], strCodes "ab.") (strCodes "cd.")).2 = strCodes "ab. cd." ∧
     claimSeed 0 (strCodes "ab.") (strCodes "cd.") = strCodes " cd." ∧
     strCodes "ab. cd." ≠ strCodes " cd.") ∧
    ((6 < (strCodes "aa bb.").length + (strCodes "cc.").length ∧ strCodes "aa bb." ≠ []) ∧
     (chunkStep 6 7 ([], strCodes "aa bb.") (strCodes "cc.")).2 = strCodes "aa bb. cc." ∧
     claimSeed 7 (strCodes "aa bb.") (strCodes "cc.") = strCodes "bb. cc." ∧
     strCodes "aa bb. cc." ≠ strCodes "bb. cc.") ∧
    chunk_text (strCodes "aa bb. cc. dd.") 6 7 =
      [strCodes "aa bb.", strCodes "aa bb. cc.", strCodes "bb. cc. dd."] := by
  refine ⟨⟨by decide, by decide, by decide, by decide⟩,
    ⟨by decide, by decide, by decide, by decide⟩, by decide⟩

theorem fdiv_neg_five (a : Nat) :
    Int.fdiv (-(a : Int)) 5 = -(((a + 4) / 5 : Nat) : Int) := by
  cases a with
  | zero => rfl
  | succ m =>
    have h1 : -(((m + 1 : Nat) : Int)) = Int.negSucc m := rfl
    have h2 : (m + 1 + 4) / 5 = m / 5 + 1 := by omega
    rw [h1, h2]
    rfl

/-- C5, amended: whenever a chunk is closed because the next sentence
would overflow it, the new buffer is seeded — for every positive
`overlap` — with the last `⌈overlap/5⌉ = (overlap+4)/5` words of the
just-closed buffer (or all of its words if it has fewer), joined with
single spaces and prepended to the next sentence: Python parses
`words[-overlap//5:]` as `words[(-overlap)//5:]`, and flooring the
negated overlap makes the word count round UP, not down as the claim's
"overlap/5 (integer division)" says.  When `overlap = 0` the slice
start is `(-0)//5 = 0`, so the seed is ALL words of the just-closed
buffer, not the last 0 words. -/
theorem C5_overlap_seed (chunk_size overlap : Nat) (chunks : List (List Nat))
    (current sentence : List Nat)
    (hclose : chunk_size < current.length + sentence.length) (hne : current ≠ []) :
    (0 < overlap →
      (chunkStep chunk_size overlap (chunks, current) sentence).2 =
        joinSpace (lastN ((overlap + 4) / 5) (pySplitWords current)) ++ 32 :: sentence) ∧
    (overlap = 0 →
      (chunkStep chunk_size overlap (chunks, current) sentence).2 =
        joinSpace (pySplitWords current) ++ 32 :: sentence) := by
  have hif : (chunkStep chunk_size overlap (chunks, current) sentence).2 =
      joinSpace (if overlap / 5 < (pySplitWords current).length
        then pySliceFrom (pySplitWords current) (Int.fdiv (-(overlap : Int)) 5)
        else pySplitWords current) ++ 32 :: sentence := by
    simp only [chunkStep]
    rw [if_pos ⟨hclose, hne⟩]
  constructor
  · intro hk
    rw [hif, fdiv_neg_five]
    by_cases h : overlap / 5 < (pySplitWords current).length
    · rw [if_pos h]
      unfold pySliceFrom lastN
      rw [if_neg (by omega : ¬ (0 : Int) ≤ -(((overlap + 4) / 5 : Nat) : Int))]
      rw [neg_neg, Int.toNat_natCast]
    · rw [if_neg h]
      unfold lastN
      rw [Nat.sub_eq_zero_of_le (by omega), List.drop_zero]
  · intro hk
    subst hk
    rw [hif]
    have hf : Int.fdiv (-((0 : Nat) : Int)) 5 = 0 := rfl
    rw [hf]
    have h0 : pySliceFrom (pySplitWords current) 0 = pySplitWords current := by
      unfold pySliceFrom
      rw [if_pos (le_refl 0)]
      simp
    rw [h0, ite_self]

/-- Witness for C5, amended, at `overlap = 7` (the seed is the last
⌈7/5⌉ = 2 words) and at `overlap = 0` (the seed is the whole
buffer). -/
theorem C5_overlap_seed_w :
    (chunkStep 6 7 ([], strCodes "aa bb.") (strCodes "cc.")).2 =
      joinSpace (lastN ((7 + 4) / 5) (pySplitWords (strCodes "aa bb."))) ++
        32 :: strCodes "cc." ∧
    (chunkStep 3 0 ([], strCodes "ab.") (strCodes "cd.")).2 =
      joinSpace (pySplitWords (strCodes "ab.")) ++ 32 :: strCodes "cd." :=
  ⟨(C5_overlap_seed 6 7 [] (strCodes "aa bb.") (strCodes "cc.")
      (by decide) (by decide)).1 (by decide),
   (C5_overlap_seed 3 0 [] (strCodes "ab.") (strCodes "cd.")
      (by decide) (by decide)).2 rfl⟩

/-- C6, counterexample: on "ab. x. efghi." with `chunk_size = 5` the
FIRST emitted chunk is "ab. x." of length 6 > 5.  It is built from the
empty initial buffer, so it carries no injected overlap prefix, and it
is not a single sentence of the input (the sentences are "ab.", "x.",
"efghi."), so the single-long-sentence exception does not cover it: the
close test `len(current) + len(sentence) > chunk_size` ignores the
joining space, letting multi-sentence chunks reach
`chunk_size + 1` characters. -/
theorem C6_chunk_size_cex :
    chunk_text (strCodes "ab. x. efghi.") 5 150 =
      [strCodes "ab. x.", strCodes "ab. x. efghi."] ∧
    (strCodes "ab. x.").length = 6 ∧
    splitSentences (strCodes "ab. x. efghi.") =
      [strCodes "ab.", strCodes "x.", strCodes "efghi."] ∧
    strCodes "ab. x." ∉ splitSentences (strCodes "ab. x. efghi.") := by
  refine ⟨by decide, by decide, by decide, by decide⟩

theorem length_dropWhile_le (p : Nat → Bool) (m : List Nat) :
    (m.dropWhile p).length ≤ m.length := by
  induction m with
  | nil => simp
  | cons c cs ih =>
    rw [List.dropWhile_cons]
    split
    · simp only [List.length_cons]; omega
    · simp

theorem length_pyStrip_le (l : List Nat) : (pyStrip l).length ≤ l.length := by
  unfold pyStrip
  calc ((l.dropWhile wsB).reverse.dropWhile wsB).reverse.length
      = ((l.dropWhile wsB).reverse.dropWhile wsB).length := by simp
    _ ≤ (l.dropWhile wsB).reverse.length := length_dropWhile_le _ _
    _ = (l.dropWhile wsB).length := by simp
    _ ≤ l.length := length_dropWhile_le _ _

theorem chunkStep_inv (chunk_size overlap : Nat) (sents : List (List Nat))
    (chunks : List (List Nat)) (cur s : List Nat) (hs : s ∈ sents)
    (hch : ∀ c ∈ chunks, GoodChunk chunk_size sents c)
    (hbuf : GoodBuf chunk_size sents cur) :
    (∀ c ∈ (chunkStep chunk_size overlap (chunks, cur) s).1,
        GoodChunk chunk_size sents c) ∧
    GoodBuf chunk_size sents (chunkStep chunk_size overlap (chunks, cur) s).2 := by
  by_cases hclose : chunk_size < cur.length + s.length ∧ cur ≠ []
  · have h1 : (chunkStep chunk_size overlap (chunks, cur) s).1 =
        chunks ++ [pyStrip cur] := by
      simp only [chunkStep]
      rw [if_pos hclose]
    have h2 : (chunkStep chunk_size overlap (chunks, cur) s).2 =
        joinSpace (if overlap / 5 < (pySplitWords cur).length
          then pySliceFrom (pySplitWords cur) (Int.fdiv (-(overlap : Int)) 5)
          else pySplitWords cur) ++ 32 :: s := by
      simp only [chunkStep]
      rw [if_pos hclose]
    constructor
    · intro c hc
      rw [h1] at hc
      rcases List.mem_append.mp hc with h | h
      · exact hch c h
      · have hcs : c = pyStrip cur := by simpa using h
        subst hcs
        rcases hbuf with rfl | hlen | ⟨pre, s', hs', hpre, rfl⟩
        · exact absurd rfl hclose.2
        · exact Or.inl (le_trans (length_pyStrip_le cur) hlen)
        · exact Or.inr ⟨pre, s', hs', hpre, rfl⟩
    · rw [h2]
      refine Or.inr (Or.inr ⟨joinSpace (if overlap / 5 < (pySplitWords cur).length
        then pySliceFrom (pySplitWords cur) (Int.fdiv (-(overlap : Int)) 5)
        else pySplitWords cur) ++ [32], s, hs, Or.inr ⟨_, rfl⟩, ?_⟩)
      simp
  · have h1 : (chunkStep chunk_size overlap (chunks, cur) s).1 = chunks := by
      simp only [chunkStep]
      rw [if_neg hclose]
    have h2 : (chunkStep chunk_size overlap (chunks, cur) s).2 =
        if cur = [] then s else cur ++ 32 :: s := by
      simp only [chunkStep]
      rw [if_neg hclose]
    constructor
    · intro c hc; rw [h1] at hc; exact hch c hc
    rw [h2]
    by_cases hcur : cur = []
    · rw [if_pos hcur]
      exact Or.inr (Or.inr ⟨[], s, hs, Or.inl rfl, by simp⟩)
    · rw [if_neg hcur]
      have hle : cur.length + s.length ≤ chunk_size := by
        by_contra hlt
        exact hclose ⟨by omega, hcur⟩
      refine Or.inr (Or.inl ?_)
      simp only [List.length_append, List.length_cons]
      omega

theorem chunkFold_inv (chunk_size overlap : Nat) (sents : List (List Nat)) :
    ∀ (l : List (List Nat)) (acc : List (List Nat) × List Nat),
      (∀ s ∈ l, s ∈ sents) →
      (∀ c ∈ acc.1, GoodChunk chunk_size sents c) →
      GoodBuf chunk_size sents acc.2 →
      (∀ c ∈ (l.foldl (chunkStep chunk_size overlap) acc).1,
          GoodChunk chunk_size sents c) ∧
      GoodBuf chunk_size sents (l.foldl (chunkStep chunk_size overlap) acc).2 := by
  intro l
  induction l with
  | nil => intro acc _ h1 h2; exact ⟨h1, h2⟩
  | cons s rest ih =>
    intro acc hsub h1 h2
    rw [List.foldl_cons]
    have hstep := chunkStep_inv chunk_size overlap sents acc.1 acc.2 s
      (hsub s (by simp)) h1 h2
    exact ih _ (fun s' hs' => hsub s' (by simp [hs'])) hstep.1 hstep.2

/-- C6, amended: every chunk produced by the chunker either has length
at most `chunk_size + 1` characters (the close test
`len(current) + len(sentence) > chunk_size` ignores the joining space,
so appended chunks can exceed `chunk_size` by exactly one) or
consists — up to whitespace stripping — of an overlap seed (possibly
empty) followed by one single sentence of the input, emitted whole and
untruncated. -/
theorem C6_chunk_bound (text : List Nat) (chunk_size overlap : Nat) :
    ∀ c ∈ chunk_text text chunk_size overlap,
      GoodChunk chunk_size (splitSentences text) c := by
  intro c hc
  have hfold := chunkFold_inv chunk_size overlap (splitSentences text)
    (splitSentences text) ([], []) (fun _ hs => hs) (by simp) (Or.inl rfl)
  simp only [chunk_text] at hc
  by_cases h : pyStrip ((splitSentences text).foldl
      (chunkStep chunk_size overlap) ([], [])).2 ≠ []
  · rw [if_pos h] at hc
    rcases List.mem_append.mp hc with h2 | h2
    · exact hfold.1 c h2
    · have hcs : c = pyStrip ((splitSentences text).foldl
          (chunkStep chunk_size overlap) ([], [])).2 := by simpa using h2
      subst hcs
      rcases hfold.2 with he | hlen | ⟨pre, s', hs', hpre, hform⟩
      · rw [he] at h; exact absurd rfl h
      · exact Or.inl (le_trans (length_pyStrip_le _) hlen)
      · exact Or.inr ⟨pre, s', hs', hpre, by rw [hform]⟩
  · rw [if_neg h] at hc
    exact hfold.1 c hc

/-- Witness for C6, amended: the over-long first chunk of the
counterexample input satisfies the amended bound (its length 6 is
within `chunk_size + 1 = 6`). -/
theorem C6_chunk_bound_w :
    GoodChunk 5 (splitSentences (strCodes "ab. x. efghi.")) (strCodes "ab. x.") :=
  C6_chunk_bound (strCodes "ab. x. efghi.") 5 150 (strCodes "ab. x.") (by decide)

theorem innerProd_nil_left (v : List ℚ) : innerProd [] v = 0 := rfl

theorem innerProd_nil_right (v : List ℚ) : innerProd v [] = 0 := by
  cases v <;> rfl

theorem innerProd_cons (a b : ℚ) (xs ys : List ℚ) :
    innerProd (a :: xs) (b :: ys) = a * b + innerProd xs ys := by
  simp [innerProd]

theorem sumSq_cons (a : ℚ) (xs : List ℚ) : sumSq (a :: xs) = a * a + sumSq xs := by
  simp [sumSq, innerProd]

theorem sumSq_nonneg (v : List ℚ) : 0 ≤ sumSq v := by
  induction v with
  | nil => simp [sumSq, innerProd]
  | cons a xs ih => rw [sumSq_cons]; nlinarith [mul_self_nonneg a]

theorem innerProd_two_mul_le (a b : ℚ) (x : List ℚ) :
    ∀ y : List ℚ, 2 * a * b * innerProd x y ≤ a ^ 2 * sumSq y + b ^ 2 * sumSq x := by
  induction x with
  | nil =>
    intro y
    rw [innerProd_nil_left]
    nlinarith [sumSq_nonneg y, sumSq_nonneg ([] : List ℚ), sq_nonneg a, sq_nonneg b]
  | cons c xs ih =>
    intro y
    cases y with
    | nil =>
      rw [innerProd_nil_right]
      nlinarith [sumSq_nonneg (c :: xs), sumSq_nonneg ([] : List ℚ), sq_nonneg a, sq_nonneg b]
    | cons d ys =>
      rw [innerProd_cons, sumSq_cons, sumSq_cons]
      nlinarith [ih ys, sq_nonneg (a * d - b * c)]

theorem innerProd_sq_le (x : List ℚ) :
    ∀ y : List ℚ, innerProd x y ^ 2 ≤ sumSq x * sumSq y := by
  induction x with
  | nil =>
    intro y
    rw [innerProd_nil_left]
    nlinarith [sumSq_nonneg y, sumSq_nonneg ([] : List ℚ)]
  | cons a xs ih =>
    intro y
    cases y with
    | nil =>
      rw [innerProd_nil_right]
      nlinarith [sumSq_nonneg (a :: xs), sumSq_nonneg ([] : List ℚ)]
    | cons b ys =>
      rw [innerProd_cons, sumSq_cons, sumSq_cons]
      nlinarith [ih ys, innerProd_two_mul_le a b xs ys, sq_nonneg (a * b),
        sumSq_nonneg xs, sumSq_nonneg ys]

theorem innerProd_bounds (x y : List ℚ) (hx : sumSq x = 1) (hy : sumSq y = 1) :
    -1 ≤ innerProd x y ∧ innerProd x y ≤ 1 := by
  have h := innerProd_sq_le x y
  rw [hx, hy] at h
  constructor <;> nlinarith [sq_nonneg (innerProd x y + 1), sq_nonneg (innerProd x y - 1)]

theorem withIdx_mem {scores : List ℚ} :
    ∀ {i : Int} {h : ℚ × Int}, h ∈ withIdx scores i →
      i ≤ h.2 ∧ h.2 < i + scores.length ∧ h.1 ∈ scores := by
  induction scores with
  | nil => intro i h hm; cases hm
  | cons s ss ih =>
    intro i h hm
    rcases List.mem_cons.mp hm with rfl | hm2
    · refine ⟨le_refl _, ?_, by simp⟩
      simp only [List.length_cons]
      omega
    · obtain ⟨h1, h2, h3⟩ := ih hm2
      refine ⟨by omega, ?_, by simp [h3]⟩
      simp only [List.length_cons] at *
      omega

theorem withIdx_length (scores : List ℚ) : ∀ i, (withIdx scores i).length = scores.length := by
  induction scores with
  | nil => intro i; rfl
  | cons s ss ih => intro i; simp [withIdx, ih]

theorem withIdx_filter_len (ms : ℚ) (scores : List ℚ) :
    ∀ i, ((withIdx scores i).filter (fun h => decide (ms < h.1))).length =
      (scores.filter (fun s => decide (ms < s))).length := by
  induction scores with
  | nil => intro i; rfl
  | cons s ss ih =>
    intro i
    simp only [withIdx, List.filter_cons]
    by_cases h : ms < s <;> simp [h, ih]

theorem withIdx_snd_nodup (scores : List ℚ) :
    ∀ i, ((withIdx scores i).map Prod.snd).Nodup := by
  induction scores with
  | nil => intro i; simp [withIdx]
  | cons s ss ih =>
    intro i
    simp only [withIdx, List.map_cons, List.nodup_cons]
    refine ⟨?_, ih (i + 1)⟩
    intro hmem
    rcases List.mem_map.mp hmem with ⟨h, hh, hsnd⟩
    have := (withIdx_mem hh).1
    omega

theorem hits_sorted (scores : List ℚ) (k : Nat) :
    List.Sorted hitOrder (vectorIndexSearch scores k) :=
  List.Pairwise.sublist (List.take_sublist k _)
    (List.sorted_insertionSort hitOrder (withIdx scores 0))

theorem hits_mem {scores : List ℚ} {k : Nat} {h : ℚ × Int}
    (hm : h ∈ vectorIndexSearch scores k) : h ∈ withIdx scores 0 :=
  (List.perm_insertionSort hitOrder (withIdx scores 0)).subset
    ((List.take_sublist k _).subset hm)

theorem hits_length (scores : List ℚ) (k : Nat) :
    (vectorIndexSearch scores k).length = min k scores.length := by
  unfold vectorIndexSearch
  rw [List.length_take, (List.perm_insertionSort hitOrder (withIdx scores 0)).length_eq,
    withIdx_length]

theorem hits_range {scores : List ℚ} {k : Nat} {h : ℚ × Int}
    (hm : h ∈ vectorIndexSearch scores k) :
    0 ≤ h.2 ∧ h.2 < (scores.length : Int) := by
  obtain ⟨h1, h2, _⟩ := withIdx_mem (hits_mem hm)
  constructor <;> omega

theorem hits_score_mem {scores : List ℚ} {k : Nat} {h : ℚ × Int}
    (hm : h ∈ vectorIndexSearch scores k) : h.1 ∈ scores :=
  (withIdx_mem (hits_mem hm)).2.2

theorem hits_all (scores : List ℚ) (k : Nat) (hk : scores.length ≤ k) :
    vectorIndexSearch scores k = List.insertionSort hitOrder (withIdx scores 0) := by
  unfold vectorIndexSearch
  apply List.take_of_length_le
  rw [(List.perm_insertionSort hitOrder (withIdx scores 0)).length_eq, withIdx_length]
  exact hk

theorem hits_pairwise_strict (scores : List ℚ) (k : Nat) :
    (vectorIndexSearch scores k).Pairwise hitStrict := by
  have hs : (vectorIndexSearch scores k).Pairwise hitOrder := hits_sorted scores k
  have hn : ((vectorIndexSearch scores k).map Prod.snd).Nodup := by
    have h1 : ((List.insertionSort hitOrder (withIdx scores 0)).map Prod.snd).Nodup :=
      ((List.perm_insertionSort hitOrder (withIdx scores 0)).map Prod.snd).nodup_iff.mpr
        (withIdx_snd_nodup scores 0)
    have h2 : List.Sublist ((vectorIndexSearch scores k).map Prod.snd)
        ((List.insertionSort hitOrder (withIdx scores 0)).map Prod.snd) :=
      List.Sublist.map Prod.snd (List.take_sublist k _)
    exact List.Nodup.sublist h2 h1
  have hne : (vectorIndexSearch scores k).Pairwise (fun a b => a.2 ≠ b.2) :=
    List.pairwise_map.mp hn
  have hand := hs.and hne
  exact hand.imp (fun hab => by
    rcases hab with ⟨hlt | ⟨heq, hle⟩, hne2⟩
    · exact Or.inl hlt
    · exact Or.inr ⟨heq, lt_of_le_of_ne hle hne2⟩)

theorem pyIndex_some_mem {α : Type} {l : List α} {i : Int} {a : α}
    (h : pyIndex l i = some a) : a ∈ l := by
  unfold pyIndex at h
  split at h
  · exact List.get?_mem h
  · split at h
    · exact List.get?_mem h
    · cases h

theorem pyIndex_nonneg_some {α : Type} (l : List α) (i : Int)
    (h0 : 0 ≤ i) (hlt : i < (l.length : Int)) : ∃ a, pyIndex l i = some a := by
  unfold pyIndex
  rw [if_pos h0]
  have hn : i.toNat < l.length := by omega
  exact ⟨l.get ⟨i.toNat, hn⟩, List.get?_eq_get hn⟩

theorem pyIndex_neg_some {α : Type} (l : List α) (i : Int)
    (hneg : i < 0) (hge : 0 ≤ i + l.length) : ∃ a, pyIndex l i = some a := by
  unfold pyIndex
  rw [if_neg (by omega), if_pos hge]
  have hn : (i + l.length).toNat < l.length := by omega
  exact ⟨l.get ⟨(i + l.length).toNat, hn⟩, List.get?_eq_get hn⟩

theorem collect_props (chunks : List (Nat × List Nat)) (table : List DocRow) (ms : ℚ) :
    ∀ (hits : List (ℚ × Int)) (rs : List SearchResult),
      collectResults chunks table ms hits = .ok rs →
      rs.length ≤ hits.length ∧
      (∀ r ∈ rs, ∃ h ∈ hits, r.relevance_score = h.1 ∧ ms < h.1) ∧
      (∀ r ∈ rs, ∃ p ∈ chunks, r.content = p.2) := by
  intro hits
  induction hits with
  | nil =>
    intro rs h
    simp only [collectResults, Except.ok.injEq] at h
    subst h
    exact ⟨by simp, by simp, by simp⟩
  | cons hd rest ih =>
    obtain ⟨score, idx⟩ := hd
    intro rs h
    simp only [collectResults] at h
    by_cases hg : idx < (chunks.length : Int) ∧ ms < score
    · rw [if_pos hg] at h
      cases hpy : pyIndex chunks idx with
      | none => simp only [hpy] at h; exact Except.noConfusion h
      | some a =>
        obtain ⟨did, content⟩ := a
        simp only [hpy] at h
        cases hmd : getMetadata table did with
        | none =>
          simp only [hmd] at h
          obtain ⟨h1, h2, h3⟩ := ih rs h
          refine ⟨by simp only [List.length_cons]; omega, ?_, h3⟩
          intro r hr
          obtain ⟨h', hh', hsc⟩ := h2 r hr
          exact ⟨h', List.mem_cons_of_mem _ hh', hsc⟩
        | some t3 =>
          obtain ⟨t, s, m⟩ := t3
          simp only [hmd] at h
          cases hrest : collectResults chunks table ms rest with
          | error e => simp only [hrest, Except.map] at h; exact Except.noConfusion h
          | ok rs' =>
            simp only [hrest, Except.map, Except.ok.injEq] at h
            subst h
            obtain ⟨h1, h2, h3⟩ := ih rs' hrest
            refine ⟨by simp only [List.length_cons]; omega, ?_, ?_⟩
            · intro r hr
              rcases List.mem_cons.mp hr with rfl | hr2
              · exact ⟨(score, idx), by simp, rfl, hg.2⟩
              · obtain ⟨h', hh', hsc⟩ := h2 r hr2
                exact ⟨h', List.mem_cons_of_mem _ hh', hsc⟩
            · intro r hr
              rcases List.mem_cons.mp hr with rfl | hr2
              · exact ⟨(did, content), pyIndex_some_mem hpy, rfl⟩
              · exact h3 r hr2
    · rw [if_neg hg] at h
      obtain ⟨h1, h2, h3⟩ := ih rs h
      refine ⟨by simp only [List.length_cons]; omega, ?_, h3⟩
      intro r hr
      obtain ⟨h', hh', hsc⟩ := h2 r hr
      exact ⟨h', List.mem_cons_of_mem _ hh', hsc⟩

theorem collect_ok_count (chunks : List (Nat × List Nat)) (table : List DocRow) (ms : ℚ)
    (hwf : ∀ p ∈ chunks, getMetadata table p.1 ≠ none) :
    ∀ hits : List (ℚ × Int),
      (∀ h ∈ hits, 0 ≤ h.2 ∧ h.2 < (chunks.length : Int)) →
      ∃ rs, collectResults chunks table ms hits = .ok rs ∧
        rs.length = (hits.filter (fun h => decide (ms < h.1))).length := by
  intro hits
  induction hits with
  | nil => intro _; exact ⟨[], rfl, rfl⟩
  | cons hd rest ih =>
    obtain ⟨score, idx⟩ := hd
    intro hrange
    obtain ⟨h0, hlt⟩ := hrange (score, idx) (by simp)
    obtain ⟨rs', hok, hcnt⟩ := ih (fun h hm => hrange h (List.mem_cons_of_mem _ hm))
    obtain ⟨a, hpy⟩ := pyIndex_nonneg_some chunks idx h0 hlt
    obtain ⟨did, content⟩ := a
    have hmem := pyIndex_some_mem hpy
    have hmd0 := hwf _ hmem
    by_cases hms : ms < score
    · cases hmd : getMetadata table did with
      | none => exact absurd hmd hmd0
      | some t3 =>
        obtain ⟨t, s, m⟩ := t3
        refine ⟨⟨content, t, s, m, score⟩ :: rs', ?_, ?_⟩
        · simp only [collectResults, if_pos (And.intro hlt hms), hpy, hmd, hok, Except.map]
        · simp only [List.filter_cons, decide_eq_true_eq, if_pos hms, List.length_cons, hcnt]
    · refine ⟨rs', ?_, ?_⟩
      · simp only [collectResults]
        rw [if_neg (by tauto)]
        exact hok
      · simp only [List.filter_cons, decide_eq_true_eq, if_neg hms, hcnt]

theorem collect_sorted (chunks : List (Nat × List Nat)) (table : List DocRow) (ms : ℚ) :
    ∀ (hits : List (ℚ × Int)) (rs : List SearchResult),
      collectResults chunks table ms hits = .ok rs →
      hits.Pairwise hitOrder →
      rs.Pairwise (fun a b => b.relevance_score ≤ a.relevance_score) := by
  intro hits
  induction hits with
  | nil =>
    intro rs h _
    simp only [collectResults, Except.ok.injEq] at h
    subst h
    exact List.Pairwise.nil
  | cons hd rest ih =>
    obtain ⟨score, idx⟩ := hd
    intro rs h hpw
    have hpwrest := List.Pairwise.sublist (List.sublist_cons_self _ _) hpw
    have hhead : ∀ h' ∈ rest, hitOrder (score, idx) h' :=
      fun h' hh' => List.rel_of_pairwise_cons hpw hh'
    simp only [collectResults] at h
    by_cases hg : idx < (chunks.length : Int) ∧ ms < score
    · rw [if_pos hg] at h
      cases hpy : pyIndex chunks idx with
      | none => simp only [hpy] at h; exact Except.noConfusion h
      | some a =>
        obtain ⟨did, content⟩ := a
        simp only [hpy] at h
        cases hmd : getMetadata table did with
        | none => simp only [hmd] at h; exact ih rs h hpwrest
        | some t3 =>
          obtain ⟨t, s, m⟩ := t3
          simp only [hmd] at h
          cases hrest : collectResults chunks table ms rest with
          | error e => simp only [hrest, Except.map] at h; exact Except.noConfusion h
          | ok rs' =>
            simp only [hrest, Except.map, Except.ok.injEq] at h
            subst h
            refine List.Pairwise.cons ?_ (ih rs' hrest hpwrest)
            intro r hr
            obtain ⟨h', hh', hre, _⟩ := (collect_props chunks table ms rest rs' hrest).2.1 r hr
            have hho := hhead h' hh'
            rcases hho with hlt | ⟨heq, _⟩
            · simp only [hre]; exact le_of_lt hlt
            · simp only [hre]; exact le_of_eq heq.symm
    · rw [if_neg hg] at h
      exact ih rs h hpwrest

theorem search_some_ok (embed : List Nat → List ℚ) (st : AgentState) (query : List Nat)
    (k : Nat) (ms : ℚ) (index : List (List ℚ)) (rs : List SearchResult)
    (hidx : st.vector_index = some index)
    (hne : ¬ st.document_chunks.length = 0)
    (hok : collectResults st.document_chunks st.documents ms
      (vectorIndexSearch (index.map (innerProd (embed query))) k) = .ok rs) :
    search_knowledge_base embed st query k ms =
      if rs = [] then (st, .noRelevant) else (pushLog st query rs, .found rs) := by
  simp only [search_knowledge_base, hidx, if_neg hne, hok]

theorem searchResults_of_ok (embed : List Nat → List ℚ) (st : AgentState) (query : List Nat)
    (k : Nat) (ms : ℚ) (index : List (List ℚ)) (rs : List SearchResult)
    (hidx : st.vector_index = some index)
    (hne : ¬ st.document_chunks.length = 0)
    (hok : collectResults st.document_chunks st.documents ms
      (vectorIndexSearch (index.map (innerProd (embed query))) k) = .ok rs) :
    searchResults embed st query k ms = rs := by
  rw [searchResults, search_some_ok embed st query k ms index rs hidx hne hok]
  by_cases hrs : rs = []
  · rw [if_pos hrs, hrs]
  · rw [if_neg hrs]

theorem searchResults_of_empty (embed : List Nat → List ℚ) (st : AgentState)
    (query : List Nat) (k : Nat) (ms : ℚ)
    (h : st.vector_index = none ∨ st.document_chunks.length = 0) :
    searchResults embed st query k ms = [] := by
  rcases h with h | h
  · simp only [searchResults, search_knowledge_base, h]
  · cases hidx : st.vector_index with
    | none => simp only [searchResults, search_knowledge_base, hidx]
    | some index => simp only [searchResults, search_knowledge_base, hidx, if_pos h]

theorem search_cases (embed : List Nat → List ℚ) (st : AgentState) (query : List Nat)
    (k : Nat) (ms : ℚ) :
    (search_knowledge_base embed st query k ms = (st, .emptyKB)) ∨
    (search_knowledge_base embed st query k ms = (st, .noRelevant)) ∨
    (search_knowledge_base embed st query k ms = (st, .raised)) ∨
    (∃ rs, rs ≠ [] ∧ search_knowledge_base embed st query k ms =
      (pushLog st query rs, .found rs)) := by
  cases hidx : st.vector_index with
  | none => exact Or.inl (by simp only [search_knowledge_base, hidx])
  | some index =>
    by_cases hne : st.document_chunks.length = 0
    · exact Or.inl (by simp only [search_knowledge_base, hidx, if_pos hne])
    · cases hok : collectResults st.document_chunks st.documents ms
          (vectorIndexSearch (index.map (innerProd (embed query))) k) with
      | error e =>
        refine Or.inr (Or.inr (Or.inl ?_))
        simp only [search_knowledge_base, hidx, if_neg hne, hok]
      | ok rs =>
        by_cases hrs : rs = []
        · refine Or.inr (Or.inl ?_)
          rw [search_some_ok embed st query k ms index rs hidx hne hok, if_pos hrs]
        · refine Or.inr (Or.inr (Or.inr ⟨rs, hrs, ?_⟩))
          rw [search_some_ok embed st query k ms index rs hidx hne hok, if_neg hrs]

/-- C2: with the faiss index search modelled from the spec over exact
rationals, a query against an index of `N` unit vectors (in bijection
with the `N` retained chunks, every chunk resolvable in the documents
table) returns at most `min top_k N` results; the hit list is sorted
strictly descending by score with ties broken by earlier build
position, and the returned results preserve descending score order;
every returned score lies in `[-1, 1]`; and when `top_k` is at least
`N`, every index entry whose score passes the threshold contributes a
result. -/
theorem C2_search_ranking (embed : List Nat → List ℚ) (st : AgentState)
    (index : List (List ℚ)) (query : List Nat) (k : Nat) (ms : ℚ)
    (hidx : st.vector_index = some index)
    (hlen : index.length = st.document_chunks.length)
    (hq : sumSq (embed query) = 1)
    (hunit : ∀ v ∈ index, sumSq v = 1)
    (hwf : ∀ p ∈ st.document_chunks, getMetadata st.documents p.1 ≠ none) :
    (searchResults embed st query k ms).length ≤ min k st.document_chunks.length ∧
    (vectorIndexSearch (index.map (innerProd (embed query))) k).Pairwise hitStrict ∧
    (searchResults embed st query k ms).Pairwise
      (fun a b => b.relevance_score ≤ a.relevance_score) ∧
    (∀ r ∈ searchResults embed st query k ms,
      -1 ≤ r.relevance_score ∧ r.relevance_score ≤ 1) ∧
    (st.document_chunks.length ≤ k →
      (searchResults embed st query k ms).length =
        ((index.map (innerProd (embed query))).filter (fun s => decide (ms < s))).length) := by
  have hscrlen : (index.map (innerProd (embed query))).length = st.document_chunks.length := by
    rw [List.length_map, hlen]
  by_cases hne : st.document_chunks.length = 0
  · have hres : searchResults embed st query k ms = [] :=
      searchResults_of_empty embed st query k ms (Or.inr hne)
    have hscr0 : index.map (innerProd (embed query)) = [] :=
      List.length_eq_zero.mp (by rw [hscrlen, hne])
    refine ⟨by simp [hres], hits_pairwise_strict _ _, by simp [hres],
      by simp [hres], ?_⟩
    intro _
    rw [hres, hscr0]
    rfl
  · have hrange : ∀ h ∈ vectorIndexSearch (index.map (innerProd (embed query))) k,
        0 ≤ h.2 ∧ h.2 < (st.document_chunks.length : Int) := by
      intro h hm
      obtain ⟨h1, h2⟩ := hits_range hm
      rw [hscrlen] at h2
      exact ⟨h1, h2⟩
    obtain ⟨rs, hok, hcount⟩ :=
      collect_ok_count st.document_chunks st.documents ms hwf _ hrange
    have hres : searchResults embed st query k ms = rs :=
      searchResults_of_ok embed st query k ms index rs hidx hne hok
    have hprops := collect_props st.document_chunks st.documents ms _ rs hok
    refine ⟨?_, hits_pairwise_strict _ _, ?_, ?_, ?_⟩
    · rw [hres]
      calc rs.length ≤ (vectorIndexSearch (index.map (innerProd (embed query))) k).length :=
            hprops.1
        _ = min k st.document_chunks.length := by rw [hits_length, hscrlen]
    · rw [hres]
      exact collect_sorted st.document_chunks st.documents ms _ rs hok (hits_sorted _ k)
    · intro r hr
      rw [hres] at hr
      obtain ⟨h2, hh2, hre, _⟩ := hprops.2.1 r hr
      obtain ⟨v, hv, hvs⟩ := List.mem_map.mp (hits_score_mem hh2)
      rw [hre, ← hvs]
      exact innerProd_bounds (embed query) v hq (hunit v hv)
    · intro hk
      rw [hres, hcount, hits_all _ k (by rw [hscrlen]; exact hk)]
      rw [((List.perm_insertionSort hitOrder _).filter _).length_eq]
      exact withIdx_filter_len ms _ 0

/-- Witness for C2 at the concrete two-chunk state `wState`: all five
conclusions evaluate with the hypotheses discharged concretely. -/
theorem C2_search_ranking_w :
    (searchResults wEmbed wState (strCodes "q") 10 (1/5)).length ≤
      min 10 wState.document_chunks.length ∧
    (vectorIndexSearch (([[3/5, 4/5], [1, 0]] :
        List (List ℚ)).map (innerProd (wEmbed (strCodes "q")))) 10).Pairwise hitStrict ∧
    (searchResults wEmbed wState (strCodes "q") 10 (1/5)).Pairwise
      (fun a b => b.relevance_score ≤ a.relevance_score) ∧
    (∀ r ∈ searchResults wEmbed wState (strCodes "q") 10 (1/5),
      -1 ≤ r.relevance_score ∧ r.relevance_score ≤ 1) ∧
    (wState.document_chunks.length ≤ 10 →
      (searchResults wEmbed wState (strCodes "q") 10 (1/5)).length =
        ((([[3/5, 4/5], [1, 0]] : List (List ℚ)).map
          (innerProd (wEmbed (strCodes "q")))).filter
            (fun s => decide ((1/5 : ℚ) < s))).length) :=
  C2_search_ranking wEmbed wState [[3/5, 4/5], [1, 0]] (strCodes "q") 10 (1/5)
    rfl rfl (by with_unfolding_all decide) (by with_unfolding_all decide) (by decide)

/-- C3: every result returned by the knowledge-base search has
`relevance_score` strictly greater than the caller-supplied
`min_score`, for every query, `top_k` and `min_score`. -/
theorem C3_threshold (embed : List Nat → List ℚ) (st : AgentState) (query : List Nat)
    (k : Nat) (ms : ℚ) :
    ∀ r ∈ searchResults embed st query k ms, ms < r.relevance_score := by
  intro r hr
  cases hidx : st.vector_index with
  | none =>
    rw [searchResults_of_empty embed st query k ms (Or.inl hidx)] at hr
    cases hr
  | some index =>
    by_cases hne : st.document_chunks.length = 0
    · rw [searchResults_of_empty embed st query k ms (Or.inr hne)] at hr
      cases hr
    · cases hok : collectResults st.document_chunks st.documents ms
          (vectorIndexSearch (index.map (innerProd (embed query))) k) with
      | error e =>
        rw [searchResults] at hr
        simp only [search_knowledge_base, hidx, if_neg hne, hok] at hr
        cases hr
      | ok rs =>
        rw [searchResults_of_ok embed st query k ms index rs hidx hne hok] at hr
        obtain ⟨h2, _, hre, hms⟩ :=
          (collect_props st.document_chunks st.documents ms _ rs hok).2.1 r hr
        rw [hre]
        exact hms

/-- Witness for C3: the top result of the concrete search on `wState`
has score 1, strictly above the threshold 1/5. -/
theorem C3_threshold_w : (1/5 : ℚ) < 1 :=
  C3_threshold wEmbed wState (strCodes "q") 10 (1/5)
    ⟨strCodes "alpha", strCodes "T", strCodes "manual", strCodes "\x7b\x7d", 1⟩
    (by with_unfolding_all decide)

/-- C7: searching an empty or uninitialized index is not an error — the
query returns the empty-knowledge-base reply (leaving the state
unchanged), which is distinct, both as a reply and as the literal
message string, from the no-relevant-information reply used when zero
matches pass the threshold; and rebuilding from an empty store yields a
state whose search still answers with the empty signal rather than
failing. -/
theorem C7_empty_search (embed : List Nat → List ℚ) (st : AgentState) (query : List Nat)
    (k : Nat) (ms : ℚ) :
    (st.vector_index = none ∨ st.document_chunks = [] →
      search_knowledge_base embed st query k ms = (st, .emptyKB)) ∧
    SearchReply.emptyKB ≠ SearchReply.noRelevant ∧
    emptyKBMessage ≠ noRelevantMessage ∧
    (st.documents = [] →
      search_knowledge_base embed (build_vector_index embed st) query k ms =
        (build_vector_index embed st, .emptyKB)) := by
  refine ⟨?_, by decide, by decide, ?_⟩
  · intro h
    rcases h with h | h
    · simp only [search_knowledge_base, h]
    · cases hidx : st.vector_index with
      | none => simp only [search_knowledge_base, hidx]
      | some index => simp [search_knowledge_base, hidx, h]
  · intro hd
    have hb : build_vector_index embed st = { st with document_chunks := [] } := by
      unfold build_vector_index
      rw [hd]
      rfl
    rw [hb]
    cases hidx : st.vector_index with
    | none => simp [search_knowledge_base, hidx]
    | some index => simp [search_knowledge_base, hidx]

/-- Witness for C7: searching a fresh state with no index, and
searching after rebuilding over an empty documents table, both return
the empty-knowledge-base reply. -/
theorem C7_empty_search_w :
    search_knowledge_base wEmbed ⟨[], none, [], []⟩ (strCodes "q") 10 (1/5) =
      (⟨[], none, [], []⟩, .emptyKB) ∧
    search_knowledge_base wEmbed (build_vector_index wEmbed ⟨[], none, [], []⟩)
        (strCodes "q") 10 (1/5) =
      (build_vector_index wEmbed ⟨[], none, [], []⟩, .emptyKB) :=
  ⟨(C7_empty_search wEmbed ⟨[], none, [], []⟩ (strCodes "q") 10 (1/5)).1 (Or.inl rfl),
   (C7_empty_search wEmbed ⟨[], none, [], []⟩ (strCodes "q") 10 (1/5)).2.2.2 rfl⟩

/-- C8, counterexample: the defensive guard `idx < len(document_chunks)`
does NOT skip the faiss padding position `-1` (Python evaluates
`-1 < len` to true), so a padding hit whose score passes the threshold
contributes a result entry — via Python negative indexing it reads the
LAST chunk ("beta") — rather than being silently skipped; and a
position below `-len` passes the guard and raises an `IndexError`
rather than being tolerated. -/
theorem C8_dead_position_cex :
    collectResults wState.document_chunks wTable (1/5) [(1, -1)] =
      .ok [⟨strCodes "beta", strCodes "T", strCodes "manual", strCodes "\x7b\x7d", 1⟩] ∧
    collectResults wState.document_chunks wTable (1/5) [(1, -5)] = .error () :=
  ⟨by with_unfolding_all decide, by with_unfolding_all decide⟩

/-- C8, amended: a hit position at or above the live-chunk count is
tolerated and silently skipped (it contributes no result entry and
raises no error); and for hit lists whose positions are all at least
`-len` — which covers everything the index search can yield, including
faiss's `-1` padding — the loop raises no error and every returned
result references a live chunk (a negative position passes the bound
check and reads a chunk from the END of the list by Python negative
indexing, so it is excluded only by the score threshold, not by the
defensive bound check). -/
theorem C8_bound_check (chunks : List (Nat × List Nat)) (table : List DocRow) (ms : ℚ) :
    (∀ (score : ℚ) (idx : Int) (rest : List (ℚ × Int)),
      (chunks.length : Int) ≤ idx →
      collectResults chunks table ms ((score, idx) :: rest) =
        collectResults chunks table ms rest) ∧
    (∀ hits : List (ℚ × Int), (∀ h ∈ hits, -(chunks.length : Int) ≤ h.2) →
      ∃ rs, collectResults chunks table ms hits = .ok rs ∧
        ∀ r ∈ rs, ∃ p ∈ chunks, r.content = p.2) := by
  constructor
  · intro score idx rest hge
    simp only [collectResults]
    rw [if_neg (fun hcon => absurd hcon.1 (not_lt.mpr hge))]
  · intro hits
    induction hits with
    | nil => intro _; exact ⟨[], rfl, by simp⟩
    | cons hd rest ih =>
      obtain ⟨score, idx⟩ := hd
      intro hrange
      obtain ⟨rs', hok, hlive⟩ := ih (fun h hm => hrange h (List.mem_cons_of_mem _ hm))
      by_cases hg : idx < (chunks.length : Int) ∧ ms < score
      · have hge : -(chunks.length : Int) ≤ idx := hrange (score, idx) (by simp)
        have hpys : ∃ a, pyIndex chunks idx = some a := by
          by_cases h0 : 0 ≤ idx
          · exact pyIndex_nonneg_some chunks idx h0 hg.1
          · exact pyIndex_neg_some chunks idx (by omega) (by omega)
        obtain ⟨⟨did, content⟩, hpy⟩ := hpys
        cases hmd : getMetadata table did with
        | none =>
          refine ⟨rs', ?_, hlive⟩
          simp only [collectResults, if_pos hg, hpy, hmd]
          exact hok
        | some t3 =>
          obtain ⟨t, s, m⟩ := t3
          refine ⟨⟨content, t, s, m, score⟩ :: rs', ?_, ?_⟩
          · simp only [collectResults, if_pos hg, hpy, hmd, hok, Except.map]
          · intro r hr
            rcases List.mem_cons.mp hr with rfl | hr2
            · exact ⟨(did, content), pyIndex_some_mem hpy, rfl⟩
            · exact hlive r hr2
      · refine ⟨rs', ?_, hlive⟩
        simp only [collectResults]
        rw [if_neg hg]
        exact hok

/-- Witness for C8, amended: an out-of-range position 5 over the
two-chunk state is skipped, and the padding-feasible hit list
`[(1, -1)]` collects without error into results that reference live
chunks. -/
theorem C8_bound_check_w :
    collectResults wState.document_chunks wTable (1/5) [(1, 5)] =
      collectResults wState.document_chunks wTable (1/5) [] ∧
    ∃ rs, collectResults wState.document_chunks wTable (1/5) [(1, -1)] = .ok rs ∧
      ∀ r ∈ rs, ∃ p ∈ wState.document_chunks, r.content = p.2 :=
  ⟨(C8_bound_check wState.document_chunks wTable (1/5)).1 1 5 [] (by decide),
   (C8_bound_check wState.document_chunks wTable (1/5)).2 [(1, -1)] (by decide)⟩

/-- C9: after every query the recent-searches log holds at most 10
entries (given it did before — when nothing is appended the log is
simply unchanged, and when an entry is appended the result is the
`[-10:]` slice, which is at most 10 long unconditionally); an entry is
appended exactly for the non-empty `found` replies, appending the query
with its results and keeping the last 10 entries in order (oldest
evicted first); for every other reply the log is untouched. -/
theorem C9_recent_log (embed : List Nat → List ℚ) (st : AgentState) (query : List Nat)
    (k : Nat) (ms : ℚ) :
    (st.recent_knowledge_searches.length ≤ 10 →
      (search_knowledge_base embed st query k ms).1.recent_knowledge_searches.length ≤ 10) ∧
    (∀ rs, (search_knowledge_base embed st query k ms).2 = .found rs →
      rs ≠ [] ∧
      (search_knowledge_base embed st query k ms).1.recent_knowledge_searches =
        lastN 10 (st.recent_knowledge_searches ++ [⟨query, rs⟩])) ∧
    ((∀ rs, (search_knowledge_base embed st query k ms).2 ≠ .found rs) →
      (search_knowledge_base embed st query k ms).1.recent_knowledge_searches =
        st.recent_knowledge_searches) := by
  have hlast : ∀ l : List SearchInfo, (lastN 10 l).length ≤ 10 := by
    intro l
    unfold lastN
    rw [List.length_drop]
    omega
  rcases search_cases embed st query k ms with h | h | h | ⟨rs, hne, h⟩ <;> rw [h]
  · exact ⟨fun hp => hp, fun rs' heq => SearchReply.noConfusion heq, fun _ => rfl⟩
  · exact ⟨fun hp => hp, fun rs' heq => SearchReply.noConfusion heq, fun _ => rfl⟩
  · exact ⟨fun hp => hp, fun rs' heq => SearchReply.noConfusion heq, fun _ => rfl⟩
  · refine ⟨fun _ => hlast _, ?_, ?_⟩
    · intro rs' heq
      have heq2 : rs = rs' := by
        have := SearchReply.found.inj heq
        exact this
      subst heq2
      exact ⟨hne, rfl⟩
    · intro hnone
      exact absurd rfl (hnone rs)

/-- Witness for C9 on the concrete two-chunk state: the post-query log
is within the bound, and the `found` reply appended exactly the query
with its two results. -/
theorem C9_recent_log_w :
    (search_knowledge_base wEmbed wState (strCodes "q") 10
      (1/5)).1.recent_knowledge_searches.length ≤ 10 ∧
    (([⟨strCodes "alpha", strCodes "T", strCodes "manual", strCodes "\x7b\x7d", (1 : ℚ)⟩,
       ⟨strCodes "beta", strCodes "T", strCodes "manual", strCodes "\x7b\x7d",
         (3/5 : ℚ)⟩] : List SearchResult) ≠ [] ∧
     (search_knowledge_base wEmbed wState (strCodes "q") 10
        (1/5)).1.recent_knowledge_searches =
       lastN 10 (wState.recent_knowledge_searches ++
         [⟨strCodes "q",
           [⟨strCodes "alpha", strCodes "T", strCodes "manual", strCodes "\x7b\x7d", (1 : ℚ)⟩,
            ⟨strCodes "beta", strCodes "T", strCodes "manual", strCodes "\x7b\x7d",
              (3/5 : ℚ)⟩]⟩])) :=
  ⟨(C9_recent_log wEmbed wState (strCodes "q") 10 (1/5)).1 (by decide),
   (C9_recent_log wEmbed wState (strCodes "q") 10 (1/5)).2.1
     [⟨strCodes "alpha", strCodes "T", strCodes "manual", strCodes "\x7b\x7d", (1 : ℚ)⟩,
      ⟨strCodes "beta", strCodes "T", strCodes "manual", strCodes "\x7b\x7d", (3/5 : ℚ)⟩]
     (by with_unfolding_all decide)⟩

/-- C10: a query mutates nothing but the recent-searches log — the
documents table, the vector index and the retained chunk list of the
post-state are those of the pre-state in every branch of the search. -/
theorem C10_frame (embed : List Nat → List ℚ) (st : AgentState) (query : List Nat)
    (k : Nat) (ms : ℚ) :
    (search_knowledge_base embed st query k ms).1.documents = st.documents ∧
    (search_knowledge_base embed st query k ms).1.vector_index = st.vector_index ∧
    (search_knowledge_base embed st query k ms).1.document_chunks = st.document_chunks := by
  rcases search_cases embed st query k ms with h | h | h | ⟨rs, hne, h⟩ <;> rw [h] <;>
    exact ⟨rfl, rfl, rfl⟩

end AgentTars
